import Mathlib

/-
Shallow embedding of `migrate.py` (a quick-and-dirty database migration tool)
together with proofs about its behaviour.

Conventions used throughout this development:
* Python strings are Lean `String`s; lines of a file are modelled as the list
  of lines without their trailing newline character (the parser re-appends a
  newline when it joins buffered lines, exactly as the source keeps the
  newline of each buffered line).
* Python `dict`s (insertion ordered) are association lists.
* Database effects are modelled as an explicit effect log with a pending /
  committed split driven by begin / commit / rollback.
* Machine-level hashing (`hashlib.sha256`) is implemented directly over
  byte lists (`Nat` values `< 256`) with 32-bit words as `Nat % 2^32`.
-/

namespace Migrate

/-- ASCII whitespace as matched by the Python regex class `\s` (and stripped by
`int()`): space, tab, newline, carriage return, vertical tab, form feed. -/
def isWS (c : Char) : Bool :=
  c = ' ' || c = '\t' || c = '\n' || c = '\r' || c = Char.ofNat 11 || c = Char.ofNat 12

/-- Drop leading whitespace. -/
def dropWS (l : List Char) : List Char := l.dropWhile isWS

/-- Drop trailing whitespace. -/
def dropTrailWS (l : List Char) : List Char := (l.reverse.dropWhile isWS).reverse

/-- Strip whitespace at both ends. -/
def stripWS (l : List Char) : List Char := dropTrailWS (dropWS l)

/-- Model of `COMMENTS = re.compile(r"^\s*--\s*(.*?)\s*$")` applied with
`.match` to a full line: succeeds when the first non-whitespace characters
are `--`, returning capture group 1 (the text after `--` with surrounding
whitespace stripped). -/
def commentMatch (line : List Char) : Option (List Char) :=
  match dropWS line with
  | '-' :: '-' :: rest => some (stripWS rest)
  | _ => none

/-- Model of `MIGRATE_KEY = re.compile(r"migrate:\s*([^\s]*)")` applied with
`.match` (anchored at the start): the input must begin with the literal
`migrate:`; the capture is the maximal non-whitespace run after optional
whitespace. -/
def migrateKeyMatch (c1 : List Char) : Option (List Char) :=
  if ("migrate:".data).isPrefixOf c1 then
    some (((c1.drop 8).dropWhile isWS).takeWhile (fun c => !(isWS c)))
  else none

/-- A suffix acceptable after the terminating semicolon for
`SQL_IS_COMPLETE = re.compile(r".*;\s*(--.*)?$")`: optional whitespace, then
optionally a trailing `--` comment. -/
def restOk (l : List Char) : Bool :=
  match dropWS l with
  | [] => true
  | '-' :: '-' :: _ => true
  | _ => false

/-- Model of `SQL_IS_COMPLETE.match line`: some `;` occurs in the line such
that everything after it is whitespace and/or a trailing comment. -/
def sqlComplete : List Char → Bool
  | [] => false
  | c :: cs => (c = ';' && restOk cs) || sqlComplete cs

/-- Model of `EMPTY_LINE = re.compile(r"^\s*$")` matching the line. -/
def isEmptyLine (l : List Char) : Bool := (dropWS l).isEmpty

/-- Helper for the `MAY_FAIL` substitution: try to match `\s*@` at the head
of the list; on success return the remainder after the matched span. -/
def stripAtHead : List Char → Option (List Char)
  | [] => none
  | c :: cs => if c = '@' then some cs else if isWS c then stripAtHead cs else none

/-- Model of `MAY_FAIL.sub("", query, count=1)` with
`MAY_FAIL = re.compile(r"\s*@")`: remove the leftmost match of `\s*@`
anywhere in the string (the first `@` together with the maximal whitespace
run immediately before it); if no `@` occurs the string is unchanged. -/
def mayFailSubL : List Char → List Char
  | [] => []
  | c :: cs =>
    match stripAtHead (c :: cs) with
    | some rest => rest
    | none => c :: mayFailSubL cs

/-- String version of the `MAY_FAIL` substitution. -/
def mayFailSub (s : String) : String := ⟨mayFailSubL s.data⟩

/-! ### The directive parser (`read_migration`)

Statements are buffered as lists of lines; the source function `flush` joins the
buffered lines (each of which still carries its newline) with an empty join.
We keep the line lists in `readMigrationLines` and join at the very end in
`read_migration`, which produces the same section map of statement strings. -/

/-- Sections of a migration while parsing: ordered map from section key to
the list of statements, each statement being the list of its source lines. -/
abbrev Sections : Type := List (String × List (List String))

/-- A parsed migration: ordered map from section key to statement strings,
the type `read_migration` produces and all later stages consume. -/
abbrev Migration : Type := List (String × List String)

/-- Membership test of a key in an ordered map (Python `key in dict`). -/
def dictContains (m : List (String × α)) (k : String) : Bool :=
  m.any (fun p => p.1 == k)

/-- Lookup in an ordered map (Python `dict[key]` / `dict.get`). -/
def dictGet? (m : List (String × α)) (k : String) : Option α :=
  (m.find? (fun p => p.1 == k)).map (fun p => p.2)

/-- Python `dict[key] = value`: update in place when the key is present, otherwise
append the new entry at the end (insertion order). -/
def dictSet (m : List (String × α)) (k : String) (v : α) : List (String × α) :=
  if dictContains m k then m.map (fun p => if p.1 == k then (p.1, v) else p)
  else m ++ [(k, v)]

/-- Python `del dict[key]`: remove the entry, keeping the order of the others. -/
def dictDel (m : List (String × α)) (k : String) : List (String × α) :=
  m.filter (fun p => !(p.1 == k))

/-- Append one statement to the list stored under `k` (the key is present). -/
def dictPush (m : Sections) (k : String) (v : List String) : Sections :=
  m.map (fun p => if p.1 == k then (p.1, p.2 ++ [v]) else p)

/-- Lookup `migration.get(k, [])` on the final section map. -/
def mget (m : Migration) (k : String) : List String :=
  ((m.find? (fun p => p.1 == k)).map (fun p => p.2)).getD []

/-- Model of the source `flush(key, current)`: ensure the key exists (with an empty
statement list), then, if the buffer is non-empty, append it as one
statement; the buffer is reset to empty by the caller. -/
def flushSt (k : String) (m : Sections) (current : List String) : Sections :=
  let m1 := if dictContains m k then m else m ++ [(k, [])]
  if current.isEmpty then m1 else dictPush m1 k current

/-- Parser state: the section map built so far, the buffered lines of the
statement in progress, and the active section key. -/
structure PState where
  migration : Sections
  current : List String
  key : String

/-- One step of the line loop in `read_migration`: a directive comment
switches the key and flushes the buffer under the new key; any other
comment line is dropped; an empty line is dropped; other lines are buffered
and flushed once a line matches the statement terminator. -/
def stepLine (st : PState) (line : String) : PState :=
  match commentMatch line.data with
  | some c1 =>
    match migrateKeyMatch c1 with
    | some k =>
      let key : String := ⟨k⟩
      { migration := flushSt key st.migration st.current, current := [], key := key }
    | none => st
  | none =>
    if isEmptyLine line.data then st
    else
      let current := st.current ++ [line]
      if sqlComplete line.data then
        { migration := flushSt st.key st.migration current, current := [], key := st.key }
      else { st with current := current }

/-- End of stream: flush a non-empty buffer, then reinterpret `prolog` as
`up` when no `up` section was declared (bare SQL files are up-only). -/
def finishP (st : PState) : Sections :=
  let m := if st.current.length > 0 then flushSt st.key st.migration st.current else st.migration
  if !(dictContains m "up") && dictContains m "prolog" then
    dictDel (dictSet m "up" ((dictGet? m "prolog").getD [])) "prolog"
  else m

/-- Parse `read_migration` up to joining: section map with statements kept as the
lists of their lines. -/
def readMigrationLines (lines : List String) : Sections :=
  finishP (lines.foldl stepLine { migration := [], current := [], key := "prolog" })

/-- Join the buffered lines of one statement, restoring the newline each
line carried in the source (the empty-separator join over lines ending in a
newline). -/
def joinLines (ls : List String) : String := String.join (ls.map (fun l => l ++ "\n"))

/-- Model of `read_migration`: parse a line stream into the section map of statement
strings. The file path is used by the source only to open the stream, so it
is not a parameter here. -/
def read_migration (lines : List String) : Migration :=
  (readMigrationLines lines).map (fun p => (p.1, p.2.map joinLines))

/-! ### Hashing (`hash_migration`)

`hashlib.sha256` is implemented directly: bytes are `Nat` values, 32-bit
words are `Nat` reduced modulo `2^32`. -/

/-- Reduce to a 32-bit word. -/
def w32 (n : Nat) : Nat := n % 4294967296

/-- Right rotation of a 32-bit word. -/
def rotr (n x : Nat) : Nat := w32 ((x >>> n) ||| (x <<< (32 - n)))

/-- Bitwise complement within 32 bits. -/
def compl32 (x : Nat) : Nat := x ^^^ 4294967295

/-- SHA-256 round constants (decimal rendering of the standard words). -/
def shaK : List Nat :=
  [1116352408, 1899447441, 3049323471, 3921009573, 961987163,
   1508970993, 2453635748, 2870763221, 3624381080, 310598401,
   607225278, 1426881987, 1925078388, 2162078206, 2614888103,
   3248222580, 3835390401, 4022224774, 264347078, 604807628,
   770255983, 1249150122, 1555081692, 1996064986, 2554220882,
   2821834349, 2952996808, 3210313671, 3336571891, 3584528711,
   113926993, 338241895, 666307205, 773529912, 1294757372,
   1396182291, 1695183700, 1986661051, 2177026350, 2456956037,
   2730485921, 2820302411, 3259730800, 3345764771, 3516065817,
   3600352804, 4094571909, 275423344, 430227734, 506948616,
   659060556, 883997877, 958139571, 1322822218, 1537002063,
   1747873779, 1955562222, 2024104815, 2227730452, 2361852424,
   2428436474, 2756734187, 3204031479, 3329325298]

/-- SHA-256 initial hash state (decimal rendering of the standard words). -/
def shaH0 : List Nat :=
  [1779033703, 3144134277, 1013904242, 2773480762,
   1359893119, 2600822924, 528734635, 1541459225]

/-- List access with default 0 for hash-state words. -/
def lget (l : List Nat) (i : Nat) : Nat := l.getD i 0

/-- Append one word to the message schedule. -/
def extendStep (w : List Nat) : List Nat :=
  let i := w.length
  let x15 := lget w (i - 15)
  let x2 := lget w (i - 2)
  let s0 := rotr 7 x15 ^^^ rotr 18 x15 ^^^ (x15 >>> 3)
  let s1 := rotr 17 x2 ^^^ rotr 19 x2 ^^^ (x2 >>> 10)
  w ++ [w32 (lget w (i - 16) + s0 + lget w (i - 7) + s1)]

/-- Iterate the schedule extension. -/
def extendN : Nat → List Nat → List Nat
  | 0, w => w
  | n + 1, w => extendN n (extendStep w)

/-- One SHA-256 compression round on the 8-word state. -/
def compressRound (st : List Nat) (kw : Nat × Nat) : List Nat :=
  let a := lget st 0
  let b := lget st 1
  let c := lget st 2
  let d := lget st 3
  let e := lget st 4
  let f := lget st 5
  let g := lget st 6
  let h := lget st 7
  let s1 := rotr 6 e ^^^ rotr 11 e ^^^ rotr 25 e
  let ch := (e &&& f) ^^^ (compl32 e &&& g)
  let t1 := w32 (h + s1 + ch + kw.1 + kw.2)
  let s0 := rotr 2 a ^^^ rotr 13 a ^^^ rotr 22 a
  let mj := (a &&& b) ^^^ (a &&& c) ^^^ (b &&& c)
  let t2 := w32 (s0 + mj)
  [w32 (t1 + t2), a, b, c, w32 (d + t1), e, f, g]

/-- Pack big-endian bytes into 32-bit words (4 bytes per word). -/
def bytesToWords : List Nat → List Nat
  | b0 :: b1 :: b2 :: b3 :: rest =>
    (b0 * 16777216 + b1 * 65536 + b2 * 256 + b3) :: bytesToWords rest
  | _ => []

/-- Big-endian byte representation of `v` on `n` bytes. -/
def beBytes : Nat → Nat → List Nat
  | 0, _ => []
  | n + 1, v => beBytes n (v >>> 8) ++ [v % 256]

/-- Compress one 64-byte block into the hash state. -/
def compressBlock (h : List Nat) (block : List Nat) : List Nat :=
  let w := extendN 48 (bytesToWords block)
  let st := (shaK.zip w).foldl compressRound h
  List.zipWith (fun x y => w32 (x + y)) h st

/-- Split the padded message into its 64-byte blocks (`n` of them). -/
def toBlocksN : Nat → List Nat → List (List Nat)
  | 0, _ => []
  | n + 1, l => l.take 64 :: toBlocksN n (l.drop 64)

/-- SHA-256 padding: `0x80`, zeros to 56 mod 64, 8-byte big-endian bit length. -/
def shaPad (bytes : List Nat) : List Nat :=
  bytes ++ (0x80 :: List.replicate ((119 - bytes.length % 64) % 64) 0) ++ beBytes 8 (bytes.length * 8)

/-- SHA-256 digest of a byte list as 8 32-bit words. -/
def sha256Words (bytes : List Nat) : List Nat :=
  let padded := shaPad bytes
  (toBlocksN (padded.length / 64) padded).foldl compressBlock shaH0

/-- The sixteen lowercase hex digits. -/
def hexDigits : List Char := "0123456789abcdef".data

/-- One hex digit character. -/
def hexChar (n : Nat) : Char := hexDigits.getD (n % 16) '0'

/-- Fixed-width lowercase hex rendering (`k` digits, most significant first). -/
def toHexFixed : Nat → Nat → List Char
  | 0, _ => []
  | k + 1, v => toHexFixed k (v / 16) ++ [hexChar v]

/-- Model of `hexdigest()`: the 8 digest words as 64 lowercase hex characters. -/
def sha256hex (bytes : List Nat) : String :=
  ⟨((sha256Words bytes).map (toHexFixed 8)).flatten⟩

/-- UTF-8 encoding of one character (`str.encode("utf8")`). -/
def utf8Bytes (c : Char) : List Nat :=
  let n := c.toNat
  if n < 128 then [n]
  else if n < 2048 then [192 + n / 64, 128 + n % 64]
  else if n < 65536 then [224 + n / 4096, 128 + (n / 64) % 64, 128 + n % 64]
  else [240 + n / 262144, 128 + (n / 4096) % 64, 128 + (n / 64) % 64, 128 + n % 64]

/-- UTF-8 bytes of a string. -/
def strBytes (s : String) : List Nat := (s.data.map utf8Bytes).flatten

/-- Python newline join of a list of strings. -/
def joinNL (l : List String) : String := String.intercalate "\n" l

/-- Model of `hash_migration`: SHA-256 hex digest of the concatenated UTF-8 bytes of
the newline-joined `prolog`, `up`, `down` and `epilog` sections (successive
`m.update` calls hash the concatenation of their arguments). -/
def hash_migration (m : Migration) : String :=
  sha256hex (strBytes (joinNL (mget m "prolog")) ++ strBytes (joinNL (mget m "up"))
    ++ strBytes (joinNL (mget m "down")) ++ strBytes (joinNL (mget m "epilog")))

/-! ### The selector (`_parse_migrations_rev`, `load_migrations`) -/

/-- Python `s.split("..")` on character lists: non-overlapping left-to-right
scan for the separator, splitting at each occurrence. -/
def splitDD : List Char → List (List Char)
  | '.' :: '.' :: rest => [] :: splitDD rest
  | c :: rest =>
    match splitDD rest with
    | h :: t => (c :: h) :: t
    | [] => [[c]]
  | [] => [[]]

/-- Python `s.split("..")` on strings. -/
def splitDotDot (s : String) : List String := (splitDD s.data).map (fun l => ⟨l⟩)

/-- Digit-and-underscore tail of a Python integer literal: underscores must
sit between digits, one at a time. -/
def pyIntDigits : Nat → List Char → Option Nat
  | acc, [] => some acc
  | acc, '_' :: c :: cs =>
    if c.isDigit then pyIntDigits (acc * 10 + (c.toNat - 48)) cs else none
  | _, ['_'] => none
  | acc, c :: cs =>
    if c.isDigit then pyIntDigits (acc * 10 + (c.toNat - 48)) cs else none

/-- Python `int(s)` (base 10): optional surrounding whitespace, optional
sign, digits with single underscores between digits; `none` models the
`ValueError` raised otherwise. -/
def pyInt (s : String) : Option Int :=
  match stripWS s.data with
  | '+' :: c :: cs =>
    if c.isDigit then (pyIntDigits (c.toNat - 48) cs).map (fun n => (n : Int)) else none
  | '-' :: c :: cs =>
    if c.isDigit then (pyIntDigits (c.toNat - 48) cs).map (fun n => -(n : Int)) else none
  | c :: cs =>
    if c.isDigit then (pyIntDigits (c.toNat - 48) cs).map (fun n => (n : Int)) else none
  | [] => none

/-- Model of `_parse_migrations_rev`: result is `(start_at, stop_at, includes, count)`.
A single token is tried as a range (unpacking `split("..")` into two names
raises `ValueError` unless it yields exactly two pieces), then as a positive
integer count; on both failures, and for any other filter list, the filters
themselves are returned as the include set. -/
def _parse_migrations_rev (filters : Option (List String)) :
    Option String × Option String × Option (List String) × Option Int :=
  match filters with
  | some [t] =>
    match splitDotDot t with
    | [a, b] =>
      ((if a.length = 0 then none else some a), (if b.length = 0 then none else some b),
        none, none)
    | _ =>
      match pyInt t with
      | some n => if 0 < n then (none, none, none, some n) else (none, none, some [t], none)
      | none => (none, none, some [t], none)
  | _ => (none, none, filters, none)

/-- The selection condition of the loop in `load_migrations`, with `done`
the number of names that already passed the condition. -/
def loadCond (start_at stop_at : Option String) (includes : Option (List String))
    (count : Option Int) (name : String) (done : Nat) : Bool :=
  (match start_at with | none => true | some s => decide (s ≤ name)) &&
  (match stop_at with | none => true | some s => decide (name ≤ s)) &&
  (match includes with | none => true | some l => l.isEmpty || l.contains name) &&
  (match count with | none => true | some c => decide ((done : Int) < c))

/-- The loop of `load_migrations`: `store` models `read_migration` on the
directory (`none` when loading raises, which is logged and skipped — after
`done` was already incremented). -/
def loadGo (store : String → Option Migration) (sa so : Option String)
    (inc : Option (List String)) (cnt : Option Int) :
    List String → Nat → List (String × Migration)
  | [], _ => []
  | name :: rest, done =>
    if loadCond sa so inc cnt name done then
      match store name with
      | some m => (name, m) :: loadGo store sa so inc cnt rest (done + 1)
      | none => loadGo store sa so inc cnt rest (done + 1)
    else loadGo store sa so inc cnt rest done

/-- Model of `load_migrations`: parse the filters, then yield each filtered candidate
name together with its parsed migration. -/
def load_migrations (store : String → Option Migration) (migrations : List String)
    (filters : Option (List String)) : List (String × Migration) :=
  let r := _parse_migrations_rev filters
  loadGo store r.1 r.2.1 r.2.2.1 r.2.2.2 migrations 0

/-! ### Ledger and reconciler -/

/-- One row of the ledger table. -/
structure LRow where
  name : String
  applied : String
  hash : String
deriving DecidableEq, Repr

/-- Model of `_migration_status`: `none` for the ledger models a missing table, whose
`SELECT` raises (`Except.error`). The fourth result column is the literal
parameter `h` substituted for `%s as hash_consistent`, i.e. always the
computed hash string. -/
def _migration_status (ledger : Option (List LRow)) (name : String) (m : Migration) :
    Except Unit (String × Option (String × String × String × String)) :=
  match ledger with
  | none => Except.error ()
  | some rows =>
    let h := hash_migration m
    match rows.find? (fun r => r.name == name) with
    | some r => Except.ok (h, some (r.name, r.applied, r.hash, h))
    | none => Except.ok (h, none)

/-- Model of `is_pending`: pending iff no ledger row exists; a falsy fourth column
would only log an inconsistency warning, the result is `false` either way.
Errors of the status query propagate. -/
def is_pending (ledger : Option (List LRow)) (name : String) (m : Migration) :
    Except Unit Bool :=
  match _migration_status ledger name m with
  | Except.error e => Except.error e
  | Except.ok (_, none) => Except.ok true
  | Except.ok (_, some _) => Except.ok false

/-- Model of `pending_migrations`: keep the loaded migrations whose pending check
returns true, and also those whose check raises — the bare `except` that
handles the installation migration when the ledger table does not exist. -/
def pending_migrations (ledger : Option (List LRow)) (store : String → Option Migration)
    (names : List String) (filters : Option (List String)) : List (String × Migration) :=
  (load_migrations store names filters).filter (fun p =>
    match is_pending ledger p.1 p.2 with
    | Except.ok false => false
    | _ => true)

/-- One `P`/`D`/`A` status report line; the `D` branch would require a falsy
(empty) fourth status column. -/
def statusLine (ledger : List LRow) (name : String) (m : Migration) : String :=
  match _migration_status (some ledger) name m with
  | Except.error _ => ""
  | Except.ok (h, none) => "P " ++ name ++ " " ++ h
  | Except.ok (h, some (_, applied, stored, hc)) =>
    if hc = "" then "D " ++ name ++ " " ++ applied ++ " " ++ h ++ " " ++ stored
    else "A " ++ name ++ " " ++ applied ++ " " ++ h

/-- Model of `status_migrations` as the list of printed lines: the on-disk loop scans
with the filters replaced by `None` when `show_missings` is set and prints a
status line per loaded migration otherwise; with `show_missings`, ledger
rows whose name is not among the found names (seeded with the `""` sentinel)
are printed as `M` lines. -/
def status_migrations (ledger : List LRow) (store : String → Option Migration)
    (names : List String) (filters : Option (List String)) (show_missings : Bool) :
    List String :=
  let loaded := load_migrations store names (if show_missings then none else filters)
  let found := "" :: loaded.map Prod.fst
  (if show_missings then [] else loaded.map (fun p => statusLine ledger p.1 p.2))
    ++ (if show_missings then
          (ledger.filter (fun r => !(found.contains r.name))).map
            (fun r => "M " ++ r.name ++ " " ++ r.applied ++ " " ++ r.hash)
        else [])

/-! ### The executor (`execute_migration`, `apply_migrations`)

Database side effects are an explicit log: statements that execute
successfully, ledger inserts and ledger deletes, split into committed and
pending (in-transaction) parts. Statement failure is an oracle `failsQ` on
the executed text; ledger insert/delete success are oracles on the name. -/

/-- Migration direction. -/
inductive Kind where
  | up
  | down
deriving DecidableEq

/-- The section key of a direction (`kind.value` in the source). -/
def Kind.value : Kind → String
  | .up => "up"
  | .down => "down"

/-- One database side effect. -/
inductive Effect where
  | exec (mig : String) (stmt : String)
  | insert (name : String) (hash : String)
  | delete (name : String)
deriving DecidableEq, Repr

/-- The migration name an effect belongs to. -/
def Effect.migName : Effect → String
  | .exec n _ => n
  | .insert n _ => n
  | .delete n => n

/-- Transaction state: effects already committed and effects pending in the
open transaction (cleared by rollback, moved to committed by commit). -/
structure Tx where
  committed : List Effect
  pending : List Effect
deriving DecidableEq, Repr

/-- The fixed statement order of `execute_migration`: template prolog,
migration prolog, template direction, migration direction, migration epilog,
template epilog. -/
def migQueries (template migration : Migration) (kind : Kind) : List String :=
  mget template "prolog" ++ mget migration "prolog" ++ mget template kind.value
    ++ mget migration kind.value ++ mget migration "epilog" ++ mget template "epilog"

/-- The statement loop of `execute_migration`: strip the may-fail marker,
flag the statement may-fail iff the substitution changed it; a failing
may-fail statement is logged and skipped, a failing plain statement aborts
with `false` (the pending effects stay in the open transaction). -/
def runQueries (failsQ : String → Bool) (name : String) :
    List String → List Effect → List Effect × Bool
  | [], acc => (acc, true)
  | q :: qs, acc =>
    let real := mayFailSub q
    let mayFail := real != q
    if failsQ real then
      if mayFail then runQueries failsQ name qs acc
      else (acc, false)
    else runQueries failsQ name qs (acc ++ [Effect.exec name real])

/-- Model of `execute_migration` on the pending effect list of the open transaction. -/
def execute_migration (failsQ : String → Bool) (name : String) (migration : Migration)
    (kind : Kind) (template : Migration) (pending : List Effect) : List Effect × Bool :=
  runQueries failsQ name (migQueries template migration kind) pending

/-- Model of `insert_migration`: on success the ledger insert with the current hash of the migration joins the open transaction; failure leaves no effect. -/
def insert_migration (insOk : String → Bool) (name : String) (migration : Migration)
    (pending : List Effect) : List Effect × Bool :=
  if insOk name then (pending ++ [Effect.insert name (hash_migration migration)], true)
  else (pending, false)

/-- Model of `delete_migration`: the ledger delete for a rolled-back migration. -/
def delete_migration (delOk : String → Bool) (name : String) (pending : List Effect) :
    List Effect × Bool :=
  if delOk name then (pending ++ [Effect.delete name], true) else (pending, false)

/-- The batch loop of `apply_migrations`. Per migration: execute, then the
ledger insert (Up) or delete (Down); any failure rolls back the open
transaction and stops the batch; on success the name is printed and, when
not in single-transaction mode, the transaction commits immediately. In
single-transaction mode the one commit happens after the whole batch. -/
def applyGo (failsQ insOk delOk : String → Bool) (kind : Kind) (one : Bool)
    (template : Migration) : List (String × Migration) → Tx → Tx × List String
  | [], tx =>
    if one then ({ committed := tx.committed ++ tx.pending, pending := [] }, [])
    else (tx, [])
  | (name, m) :: rest, tx =>
    let er := execute_migration failsQ name m kind template tx.pending
    if er.2 then
      let lr :=
        match kind with
        | .up => insert_migration insOk name m er.1
        | .down => delete_migration delOk name er.1
      if lr.2 then
        if one then
          let r := applyGo failsQ insOk delOk kind one template rest { tx with pending := lr.1 }
          (r.1, name :: r.2)
        else
          let r := applyGo failsQ insOk delOk kind one template rest
            { committed := tx.committed ++ lr.1, pending := [] }
          (r.1, name :: r.2)
      else ({ tx with pending := [] }, [])
    else ({ tx with pending := [] }, [])

/-- Model of `apply_migrations`: returns the final transaction state and the printed
names of the successfully processed migrations, in commit order. -/
def apply_migrations (failsQ insOk delOk : String → Bool) (migs : List (String × Migration))
    (kind : Kind) (one : Bool) (template : Migration) (tx : Tx) : Tx × List String :=
  applyGo failsQ insOk delOk kind one template migs tx

/-! ### Dumper table selection and row escaping -/

/-- Python `s.startswith(p)` (on code point lists). -/
def pyStartsWith (s p : String) : Bool := p.data.isPrefixOf s.data

/-- Python `s[1:]`. -/
def pyDrop1 (s : String) : String := ⟨s.data.drop 1⟩

/-- The loop of `filter_selection` over the selection tokens, carrying the
included names in order, the names marked present, and the star flag. -/
def fsLoop (existings : List String) :
    List String → List String → List String → Bool → List String × List String × Bool
  | [], res, present, star => (res, present, star)
  | item :: rest, res, present, star =>
    if item == "*" then fsLoop existings rest res present true
    else if pyStartsWith item "-" then fsLoop existings rest res (present ++ [pyDrop1 item]) true
    else if existings.contains item then
      fsLoop existings rest (res ++ [item]) (present ++ [item]) star
    else fsLoop existings rest res present star

/-- Model of `filter_selection`: explicit names are included in selection order; an
empty selection, a `*` token or a `-name` token adds every existing name not
already marked present, in listing order. -/
def filter_selection (selection existings : List String) : List String :=
  let r := fsLoop existings selection [] [] selection.isEmpty
  if r.2.2 then r.1 ++ existings.filter (fun e => !(r.2.1.contains e)) else r.1

/-- Python values that can reach `escape` from a database row. `bool` is a
separate constructor, but Python `isinstance(value, int)` is true for
`bool`, so the `int` branch of the source handles it and returns `str(value)`,
which is the literal `True` / `False`. -/
inductive PyVal where
  | none
  | str (s : String)
  | bool (b : Bool)
  | int (n : Int)
  | datetime (y mo d h mi s : Nat)
  | decimal (lit : String)
  | other (typeName : String)
deriving DecidableEq, Repr

/-- The single-quote character. -/
def quoteC : Char := Char.ofNat 39

/-- The backslash character. -/
def backslashC : Char := Char.ofNat 92

/-- One entry of `_escape_table`: the seven escaped control / quote
characters; every other code point maps to itself (`str.translate` leaves
code points above 127 unmapped). -/
def escChar (c : Char) : List Char :=
  if c.toNat = 0 then [backslashC, '0']
  else if c = backslashC then [backslashC, backslashC]
  else if c = '\n' then [backslashC, 'n']
  else if c = '\r' then [backslashC, 'r']
  else if c.toNat = 26 then [backslashC, 'Z']
  else if c.toNat = 34 then [backslashC, Char.ofNat 34]
  else if c = quoteC then [backslashC, quoteC]
  else [c]

/-- Zero-padded two-digit decimal field of `strftime`. -/
def pad2 (n : Nat) : String := if n < 10 then "0" ++ toString n else toString n

/-- Zero-padded four-digit year field of `strftime`. -/
def pad4 (n : Nat) : String :=
  if n < 10 then "000" ++ toString n
  else if n < 100 then "00" ++ toString n
  else if n < 1000 then "0" ++ toString n
  else toString n

/-- Model of `escape`: type-dispatched row serialization; the final `raise` for an
unsupported type is the `Except.error` case. -/
def escape (v : PyVal) : Except String String :=
  match v with
  | .none => Except.ok "NULL"
  | .str s => Except.ok ⟨quoteC :: ((s.data.map escChar).flatten ++ [quoteC])⟩
  | .bool b => Except.ok (if b then "True" else "False")
  | .int n => Except.ok (toString n)
  | .datetime y mo d h mi s =>
    Except.ok (String.singleton quoteC ++ pad4 y ++ "-" ++ pad2 mo ++ "-" ++ pad2 d ++ " "
      ++ pad2 h ++ ":" ++ pad2 mi ++ ":" ++ pad2 s ++ String.singleton quoteC)
  | .decimal lit => Except.ok lit
  | .other t => Except.error ("type " ++ t ++ " not supported")

/-! ### Claim theorems -/

/-- C2: evaluation of the may-fail handling at `SELECT a@b;`, a statement
whose first non-whitespace character is `S`, not the marker `@`. The
`MAY_FAIL` substitution nevertheless changes it (stripping the mid-string
`@`), so `execute_migration` flags it may-fail, executes the altered text
`SELECT ab;`, and a failure of that statement is swallowed instead of
aborting the migration (`runQueries` returns `true`). -/
theorem may_fail_midstring_eval :
    mayFailSub "SELECT a@b;" = "SELECT ab;"
    ∧ mayFailSub "SELECT a@b;" ≠ "SELECT a@b;"
    ∧ ("SELECT a@b;".data.dropWhile isWS).head? = some 'S'
    ∧ runQueries (fun q => q == "SELECT ab;") "m" ["SELECT a@b;"] [] = ([], true) := by
  refine ⟨by decide, by decide, by decide, by decide⟩

/-- C4 counterexample: the single token `a..b..c` contains the separator
`..` (its split has more than one piece), yet `_parse_migrations_rev` does
not return a range — unpacking the three-piece split raises `ValueError`
and the token ends up as an explicit name set. -/
theorem parse_filters_range_counterexample :
    _parse_migrations_rev (some ["a..b..c"]) = (none, none, some ["a..b..c"], none)
    ∧ 2 ≤ (splitDotDot "a..b..c").length := by
  refine ⟨by decide, by decide⟩

/-- C4 (amended): the dispatch of `_parse_migrations_rev` on a token list:
no filter or an empty list keeps everything; a single token whose `..`
split has exactly two pieces is a range with empty pieces meaning
unbounded; otherwise a single token that is a positive integer is a count;
otherwise, and for every list of two or more tokens, the filters are an
explicit name set. -/
theorem parse_filters_dispatch :
    _parse_migrations_rev none = (none, none, none, none)
    ∧ _parse_migrations_rev (some []) = (none, none, some [], none)
    ∧ (∀ t a b, splitDotDot t = [a, b] →
        _parse_migrations_rev (some [t]) =
          ((if a.length = 0 then none else some a),
            (if b.length = 0 then none else some b), none, none))
    ∧ (∀ t n, (splitDotDot t).length ≠ 2 → pyInt t = some n → 0 < n →
        _parse_migrations_rev (some [t]) = (none, none, none, some n))
    ∧ (∀ t, (splitDotDot t).length ≠ 2 → (∀ n, pyInt t = some n → n ≤ 0) →
        _parse_migrations_rev (some [t]) = (none, none, some [t], none))
    ∧ (∀ t₁ t₂ ts, _parse_migrations_rev (some (t₁ :: t₂ :: ts)) =
        (none, none, some (t₁ :: t₂ :: ts), none)) := by
  refine ⟨rfl, rfl, ?_, ?_, ?_, ?_⟩
  · intro t a b h
    simp [_parse_migrations_rev, h]
  · intro t n hlen hint hpos
    rcases hsp : splitDotDot t with - | ⟨a, - | ⟨b, - | ⟨c, l⟩⟩⟩ <;>
      simp_all [_parse_migrations_rev, hsp, hint, hpos]
  · intro t hlen hneg
    rcases hsp : splitDotDot t with - | ⟨a, - | ⟨b, - | ⟨c, l⟩⟩⟩ <;>
      rcases hint : pyInt t with - | n <;>
        simp_all [_parse_migrations_rev]
  · intro t₁ t₂ ts
    rfl

/-- C4 witness: the dispatch theorem applied to the concrete range token
`a..b`. -/
theorem parse_filters_dispatch_witness :
    _parse_migrations_rev (some ["a..b"]) = (some "a", some "b", none, none) := by
  have h := parse_filters_dispatch.2.2.1 "a..b" "a" "b" (by decide)
  simpa using h

/-- Result discriminator for `Except`. -/
def isErr : Except ε α → Bool
  | Except.error _ => true
  | Except.ok _ => false

/-- C9: `escape` raises exactly on values that are none of None, str, int
(including bool, a Python subclass of int), datetime, or Decimal; and since
the `isinstance(value, int)` branch catches `True`, `escape(True)` is the
Python literal `True`. -/
theorem escape_error_iff :
    (∀ v : PyVal, isErr (escape v) = true ↔ ∃ t, v = PyVal.other t)
    ∧ escape (PyVal.bool true) = Except.ok "True" := by
  constructor
  · intro v
    cases v <;> simp [escape, isErr]
  · rfl

/-- C9 witness: the characterization applied at the concrete unsupported
value `float`. -/
theorem escape_error_iff_witness : isErr (escape (PyVal.other "float")) = true :=
  (escape_error_iff.1 (PyVal.other "float")).mpr ⟨"float", rfl⟩

/-- C6: when the ledger table does not exist (`none`), the pending check of
every loaded migration raises, the bare `except` yields the migration
anyway, and the listing completes: `pending_migrations` returns exactly the
loaded migrations, so the bootstrap migration that creates the ledger table
is never blocked. -/
theorem pending_missing_ledger :
    ∀ (store : String → Option Migration) (names : List String)
      (filters : Option (List String)),
      pending_migrations none store names filters = load_migrations store names filters := by
  intro store names filters
  unfold pending_migrations
  apply List.filter_eq_self.mpr
  intro p _
  rfl

/-- C6 witness: the missing-ledger theorem at a concrete directory. -/
theorem pending_missing_ledger_witness :
    pending_migrations none (fun n => some [("up", [n])]) ["a", "b"] none
      = load_migrations (fun n => some [("up", [n])]) ["a", "b"] none :=
  pending_missing_ledger (fun n => some [("up", [n])]) ["a", "b"] none

/-- The included-names accumulator of `fsLoop` only grows. -/
theorem fsLoop_res_mono (ex : List String) :
    ∀ (sel res present : List String) (star : Bool) (x : String),
      x ∈ res → x ∈ (fsLoop ex sel res present star).1 := by
  intro sel
  induction sel with
  | nil => exact fun res present star x hx => hx
  | cons it rest ih =>
    intro res present star x hx
    simp only [fsLoop]
    split_ifs with h1 h2 h3
    · exact ih res present true x hx
    · exact ih res (present ++ [pyDrop1 it]) true x hx
    · exact ih (res ++ [it]) (present ++ [it]) star x (List.mem_append_left _ hx)
    · exact ih res present star x hx

/-- Once the star flag is set it stays set. -/
theorem fsLoop_star_mono (ex : List String) :
    ∀ (sel res present : List String), (fsLoop ex sel res present true).2.2 = true := by
  intro sel
  induction sel with
  | nil => intro res present; rfl
  | cons it rest ih =>
    intro res present
    simp only [fsLoop]
    split_ifs <;> apply ih

/-- A `*` token or any `-name` token in the selection sets the star flag. -/
theorem fsLoop_star_cond (ex : List String) :
    ∀ (sel res present : List String) (star : Bool),
      ("*" ∈ sel ∨ ∃ it ∈ sel, pyStartsWith it "-" = true) →
      (fsLoop ex sel res present star).2.2 = true := by
  intro sel
  induction sel with
  | nil =>
    intro res present star h
    rcases h with h | ⟨it, hit, -⟩ <;> simp_all
  | cons it rest ih =>
    intro res present star h
    simp only [fsLoop]
    split_ifs with h1 h2 h3 <;>
      first
      | exact fsLoop_star_mono ex rest _ _
      | · apply ih
          rcases h with h | ⟨j, hj, hjs⟩
          · rcases List.mem_cons.mp h with heq | h'
            · exact absurd (by simp [← heq]) h1
            · exact Or.inl h'
          · rcases List.mem_cons.mp hj with heq | hj'
            · exact absurd (heq ▸ hjs) h2
            · exact Or.inr ⟨j, hj', hjs⟩

/-- Everything in the final present set was either marked by a `-name`
token or also ended up in the included-names result. -/
theorem fsLoop_present_src (ex : List String) :
    ∀ (sel res present : List String) (star : Bool) (x : String),
      x ∈ (fsLoop ex sel res present star).2.1 →
      x ∈ present ∨ (∃ it ∈ sel, pyStartsWith it "-" = true ∧ pyDrop1 it = x)
        ∨ x ∈ (fsLoop ex sel res present star).1 := by
  intro sel
  induction sel with
  | nil => exact fun res present star x hx => Or.inl hx
  | cons it rest ih =>
    intro res present star x hx
    simp only [fsLoop] at hx ⊢
    split_ifs at hx ⊢ with h1 h2 h3
    · rcases ih res present true x hx with h | ⟨j, hj, hjs, hjd⟩ | h
      · exact Or.inl h
      · exact Or.inr (Or.inl ⟨j, List.mem_cons_of_mem _ hj, hjs, hjd⟩)
      · exact Or.inr (Or.inr h)
    · rcases ih res (present ++ [pyDrop1 it]) true x hx with h | ⟨j, hj, hjs, hjd⟩ | h
      · rcases List.mem_append.mp h with h | h
        · exact Or.inl h
        · exact Or.inr (Or.inl ⟨it, List.mem_cons_self it rest, h2,
            (List.mem_singleton.mp h).symm⟩)
      · exact Or.inr (Or.inl ⟨j, List.mem_cons_of_mem _ hj, hjs, hjd⟩)
      · exact Or.inr (Or.inr h)
    · rcases ih (res ++ [it]) (present ++ [it]) star x hx with h | ⟨j, hj, hjs, hjd⟩ | h
      · rcases List.mem_append.mp h with h | h
        · exact Or.inl h
        · exact Or.inr (Or.inr (fsLoop_res_mono ex rest (res ++ [it]) (present ++ [it]) star x
            (List.mem_append_right _ h)))
      · exact Or.inr (Or.inl ⟨j, List.mem_cons_of_mem _ hj, hjs, hjd⟩)
      · exact Or.inr (Or.inr h)
    · rcases ih res present star x hx with h | ⟨j, hj, hjs, hjd⟩ | h
      · exact Or.inl h
      · exact Or.inr (Or.inl ⟨j, List.mem_cons_of_mem _ hj, hjs, hjd⟩)
      · exact Or.inr (Or.inr h)

/-- C7: an empty selection selects every existing table in listing order; a
`*` token or any `-name` token switches to include-everything-not-explicitly
-excluded, so every existing name not named by a `-name` token is selected;
in particular for existing tables `[users, orders]` and selection
`["-users"]` exactly `orders` is selected. -/
theorem filter_selection_spec :
    (∀ ex : List String, filter_selection [] ex = ex)
    ∧ (∀ sel ex e, ("*" ∈ sel ∨ ∃ it ∈ sel, pyStartsWith it "-" = true) → e ∈ ex →
        (∀ it ∈ sel, ¬(pyStartsWith it "-" = true ∧ pyDrop1 it = e)) →
        e ∈ filter_selection sel ex)
    ∧ filter_selection ["-users"] ["users", "orders"] = ["orders"] := by
  refine ⟨?_, ?_, by decide⟩
  · intro ex
    show ([] : List String) ++ ex.filter (fun e => !(([] : List String).contains e)) = ex
    simp
  · intro sel ex e hstar he hexc
    have hs : (fsLoop ex sel [] [] sel.isEmpty).2.2 = true := by
      rcases sel with - | ⟨it, rest⟩
      · rcases hstar with h | ⟨j, hj, -⟩ <;> simp_all
      · exact fsLoop_star_cond ex (it :: rest) [] [] _ hstar
    show e ∈ (if (fsLoop ex sel [] [] sel.isEmpty).2.2 then _ else _)
    rw [hs, if_pos rfl]
    by_cases hp : e ∈ (fsLoop ex sel [] [] sel.isEmpty).2.1
    · rcases fsLoop_present_src ex sel [] [] sel.isEmpty e hp with h | ⟨j, hj, hjs, hjd⟩ | h
      · exact absurd h (List.not_mem_nil e)
      · exact absurd ⟨hjs, hjd⟩ (hexc j hj)
      · exact List.mem_append_left _ h
    · refine List.mem_append_right _ (List.mem_filter.mpr ⟨he, ?_⟩)
      simpa using hp

/-- C7 witness: the star branch of the selection theorem applied at a
concrete selection and table list. -/
theorem filter_selection_spec_witness : "z" ∈ filter_selection ["-x"] ["x", "z"] :=
  filter_selection_spec.2.1 ["-x"] ["x", "z"] "z" (Or.inr ⟨"-x", by decide, by decide⟩)
    (by decide) (by decide)

/-- The count-only load loop yields the first candidates up to the
remaining count, in their original order, when every candidate loads. -/
theorem loadGo_count (store : String → Option Migration) (N : Int) :
    ∀ (names : List String) (done : Nat), (∀ n ∈ names, (store n).isSome) →
      (loadGo store none none none (some N) names done).map Prod.fst
        = names.take (N - done).toNat := by
  intro names
  induction names with
  | nil => intro done h; simp [loadGo]
  | cons name rest ih =>
    intro done h
    have hs : (store name).isSome := h name (List.mem_cons_self _ _)
    rcases hm : store name with - | m
    · rw [hm] at hs; simp at hs
    · have hrest : ∀ n ∈ rest, (store n).isSome :=
        fun n hn => h n (List.mem_cons_of_mem _ hn)
      by_cases hc : (done : Int) < N
      · have hcond : loadCond none none none (some N) name done = true := by
          simp [loadCond, hc]
        have htake : (N - done).toNat = (N - (done + 1)).toNat + 1 := by omega
        simp only [loadGo, hcond, if_true, hm, List.map_cons]
        rw [ih (done + 1) hrest, htake, List.take_succ_cons]
        push_cast
        rfl
      · have hcond : loadCond none none none (some N) name done = false := by
          simp [loadCond]
          omega
        have h0 : (N - done).toNat = 0 := by omega
        have hskip : loadGo store none none none (some N) (name :: rest) done
            = loadGo store none none none (some N) rest done := by
          simp [loadGo, hcond]
        rw [hskip, ih done hrest, h0]
        simp

/-- C5: for a count filter `N`, `load_migrations` yields exactly
`min N |candidates|` migrations, namely the first `N` candidates in their
original order (every candidate loading successfully). -/
theorem count_filter_spec (store : String → Option Migration) (names : List String)
    (filters : Option (List String)) (N : Int)
    (hparse : _parse_migrations_rev filters = (none, none, none, some N))
    (hload : ∀ n ∈ names, (store n).isSome) :
    (load_migrations store names filters).map Prod.fst = names.take N.toNat
    ∧ (load_migrations store names filters).length = min N.toNat names.length := by
  have h1 : (load_migrations store names filters).map Prod.fst = names.take N.toNat := by
    simp only [load_migrations, hparse]
    simpa using loadGo_count store N names 0 hload
  refine ⟨h1, ?_⟩
  have h2 := congrArg List.length h1
  simpa [List.length_take] using h2

/-- C5 witness: the count theorem at filter token `2` over three loadable
candidates. -/
theorem count_filter_spec_witness :
    (load_migrations (fun n => some [("up", [n])]) ["a", "b", "c"] (some ["2"])).map Prod.fst
      = ["a", "b"] := by
  have h := count_filter_spec (fun n => some [("up", [n])]) ["a", "b", "c"] (some ["2"]) 2
    (by decide) (by decide)
  exact h.1.trans (by decide)

/-- With no filters, the load loop yields every loadable candidate name in
order; with all candidates loading, that is every candidate. -/
theorem loadGo_all (store : String → Option Migration) :
    ∀ (names : List String) (done : Nat), (∀ n ∈ names, (store n).isSome) →
      (loadGo store none none none none names done).map Prod.fst = names := by
  intro names
  induction names with
  | nil => intro done h; rfl
  | cons name rest ih =>
    intro done h
    have hs : (store name).isSome := h name (List.mem_cons_self _ _)
    rcases hm : store name with - | m
    · rw [hm] at hs; simp at hs
    · have hcond : loadCond none none none none name done = true := rfl
      simp only [loadGo, hcond, if_true, hm, List.map_cons]
      rw [ih (done + 1) (fun n hn => h n (List.mem_cons_of_mem _ hn))]

/-- C10: with `show_missings` set (and every on-disk migration loading, no
ledger row with an empty name), `status_migrations` prints exactly the
`M <name> <applied> <hash>` lines of the ledger rows without an on-disk
file, every `P`/`A`/`D` line being suppressed; and the name filters are
ignored in that mode, so the output does not depend on them at all. -/
theorem status_show_missings (store : String → Option Migration) (names : List String)
    (ledger : List LRow) (filters : Option (List String))
    (hload : ∀ n ∈ names, (store n).isSome)
    (hname : ∀ r ∈ ledger, r.name ≠ "") :
    status_migrations ledger store names filters true
      = (ledger.filter (fun r => !(names.contains r.name))).map
          (fun r => "M " ++ r.name ++ " " ++ r.applied ++ " " ++ r.hash)
    ∧ ∀ filters', status_migrations ledger store names filters true
        = status_migrations ledger store names filters' true := by
  constructor
  · have hl : load_migrations store names none = loadGo store none none none none names 0 := rfl
    have hn : (load_migrations store names none).map Prod.fst = names := by
      rw [hl]; exact loadGo_all store names 0 hload
    unfold status_migrations
    simp only [if_true, hn, List.nil_append]
    apply congrArg
    apply List.filter_congr
    intro r hr
    have hne : (r.name == "") = false := beq_eq_false_iff_ne.mpr (hname r hr)
    simp [List.contains_cons, hne]
    exact fun _ => hname r hr
  · intro filters'
    rfl

/-- C10 witness: the show-missings theorem at a one-row ledger whose row has
no on-disk file. -/
theorem status_show_missings_witness :
    status_migrations [⟨"gone", "2020", "abc"⟩] (fun n => some [("up", [n])]) ["a"] none true
      = ["M gone 2020 abc"] := by
  have h := status_show_missings (fun n => some [("up", [n])]) ["a"]
    [⟨"gone", "2020", "abc"⟩] none (by decide) (by decide)
  exact h.1.trans (by decide)

/-- A fixed-width hex rendering has exactly its requested width. -/
theorem length_toHexFixed : ∀ (k v : Nat), (toHexFixed k v).length = k := by
  intro k
  induction k with
  | zero => intro v; rfl
  | succ k ih => intro v; simp [toHexFixed, ih]

/-- One compression round returns an 8-word state. -/
theorem compressRound_length (st : List Nat) (kw : Nat × Nat) :
    (compressRound st kw).length = 8 := rfl

/-- The round fold preserves the 8-word state length. -/
theorem foldl_compressRound_length :
    ∀ (l : List (Nat × Nat)) (st : List Nat), st.length = 8 →
      (l.foldl compressRound st).length = 8 := by
  intro l
  induction l with
  | nil => exact fun st h => h
  | cons x xs ih => intro st h; exact ih _ (compressRound_length st x)

/-- Compressing a block preserves the 8-word state length. -/
theorem compressBlock_length (h : List Nat) (b : List Nat) (hh : h.length = 8) :
    (compressBlock h b).length = 8 := by
  unfold compressBlock
  rw [List.length_zipWith, hh, foldl_compressRound_length _ _ hh]
  rfl

/-- The SHA-256 digest always has 8 words. -/
theorem sha256Words_length (bytes : List Nat) : (sha256Words bytes).length = 8 := by
  have aux : ∀ (bs : List (List Nat)) (st : List Nat), st.length = 8 →
      (bs.foldl compressBlock st).length = 8 := by
    intro bs
    induction bs with
    | nil => exact fun st h => h
    | cons b rest ih => intro st h; exact ih _ (compressBlock_length st b h)
  exact aux _ shaH0 rfl

/-- Every rendered hex digit is one of the sixteen hex characters. -/
theorem hexChar_mem (n : Nat) : hexChar n ∈ hexDigits := by
  have h : n % 16 < hexDigits.length := by
    have h16 : n % 16 < 16 := Nat.mod_lt _ (by norm_num)
    simpa [hexDigits] using h16
  unfold hexChar
  rw [List.getD_eq_getElem _ _ h]
  exact List.getElem_mem h

/-- Every character of a fixed-width hex rendering is a hex character. -/
theorem toHexFixed_mem : ∀ (k v : Nat) (c : Char), c ∈ toHexFixed k v → c ∈ hexDigits := by
  intro k
  induction k with
  | zero => intro v c hc; simp [toHexFixed] at hc
  | succ k ih =>
    intro v c hc
    simp only [toHexFixed] at hc
    rcases List.mem_append.mp hc with h | h
    · exact ih _ _ h
    · rw [List.mem_singleton.mp h]; exact hexChar_mem v

/-- Length of the concatenated hex rendering of a word list. -/
theorem length_hexWords : ∀ ws : List Nat,
    ((ws.map (toHexFixed 8)).flatten).length = 8 * ws.length := by
  intro ws
  induction ws with
  | nil => rfl
  | cons w rest ih =>
    simp only [List.map_cons, List.flatten_cons, List.length_append, length_toHexFixed, ih,
      List.length_cons]
    ring

/-- The hex digest has exactly 64 characters. -/
theorem sha256hex_length (bytes : List Nat) : (sha256hex bytes).length = 64 := by
  show (((sha256Words bytes).map (toHexFixed 8)).flatten).length = 64
  rw [length_hexWords, sha256Words_length]

/-- Every character of the hex digest is a hex character. -/
theorem sha256hex_mem (bytes : List Nat) : ∀ c ∈ (sha256hex bytes).data, c ∈ hexDigits := by
  intro c hc
  have hmem : c ∈ ((sha256Words bytes).map (toHexFixed 8)).flatten := hc
  rcases List.mem_flatten.mp hmem with ⟨l, hl, hcl⟩
  rcases List.mem_map.mp hl with ⟨w, -, rfl⟩
  exact toHexFixed_mem 8 w c hcl

/-- C3: `hash_migration` is a pure function of the ordered `prolog`, `up`,
`down` and `epilog` section contents alone — two migrations agreeing on
those four sections hash equal, whatever file name they were read from and
whatever other sections they carry — and the digest is always 64 lowercase
hex characters. -/
theorem hash_content_only :
    (∀ m₁ m₂ : Migration,
        mget m₁ "prolog" = mget m₂ "prolog" → mget m₁ "up" = mget m₂ "up" →
        mget m₁ "down" = mget m₂ "down" → mget m₁ "epilog" = mget m₂ "epilog" →
        hash_migration m₁ = hash_migration m₂)
    ∧ ∀ m : Migration, (hash_migration m).length = 64
        ∧ ∀ c ∈ (hash_migration m).data, c ∈ hexDigits := by
  constructor
  · intro m₁ m₂ h1 h2 h3 h4
    unfold hash_migration
    rw [h1, h2, h3, h4]
  · exact fun m => ⟨sha256hex_length _, sha256hex_mem _⟩

/-- C3 witness: the purity half applied to two concrete migrations that
agree on the four hashed sections but differ elsewhere. -/
theorem hash_content_only_witness :
    hash_migration [("up", ["x;\n"]), ("note", ["a"])]
      = hash_migration [("up", ["x;\n"]), ("memo", ["b"])] :=
  hash_content_only.1 _ _ (by decide) (by decide) (by decide) (by decide)

/-- A line that may sit inside a buffered statement: not a comment line and
not an empty line. -/
def goodLine (l : String) : Prop :=
  commentMatch l.data = none ∧ isEmptyLine l.data = false

/-- Every line of every statement of every section is a good line. -/
def goodSections (m : Sections) : Prop :=
  ∀ p ∈ m, ∀ s ∈ p.2, ∀ l ∈ s, goodLine l

/-- Parser-state invariant: the section map and the buffer hold only good
lines. -/
def goodState (st : PState) : Prop :=
  goodSections st.migration ∧ ∀ l ∈ st.current, goodLine l

/-- Appending a statement of good lines preserves the section invariant. -/
theorem goodSections_push {m : Sections} {cur : List String} {k : String}
    (hm : goodSections m) (hc : ∀ l ∈ cur, goodLine l) :
    goodSections (dictPush m k cur) := by
  intro p hp s hs l hl
  rcases List.mem_map.mp hp with ⟨q, hq, rfl⟩
  split at hs
  · rcases List.mem_append.mp hs with h | h
    · exact hm q hq s h l hl
    · rw [List.mem_singleton.mp h] at hl
      exact hc l hl
  · exact hm q hq s hs l hl

/-- Flushing a buffer of good lines preserves the section invariant. -/
theorem goodSections_flush {m : Sections} {cur : List String} {k : String}
    (hm : goodSections m) (hc : ∀ l ∈ cur, goodLine l) :
    goodSections (flushSt k m cur) := by
  have hm1 : goodSections (if dictContains m k then m else m ++ [(k, [])]) := by
    split
    · exact hm
    · intro p hp s hs l hl
      rcases List.mem_append.mp hp with h | h
      · exact hm p h s hs l hl
      · rw [List.mem_singleton.mp h] at hs
        simp at hs
  by_cases hcur : cur.isEmpty
  · simpa only [flushSt, hcur, if_true] using hm1
  · simpa only [flushSt, hcur, if_false, Bool.false_eq_true] using goodSections_push hm1 hc

/-- One parser step preserves the state invariant. -/
theorem goodState_step {st : PState} (h : goodState st) (line : String) :
    goodState (stepLine st line) := by
  rcases hcm : commentMatch line.data with - | c1
  · by_cases hemp : isEmptyLine line.data
    · have hstep : stepLine st line = st := by simp [stepLine, hcm, hemp]
      rw [hstep]; exact h
    · have hemp' : isEmptyLine line.data = false := by simpa using hemp
      have hgood : goodLine line := ⟨hcm, hemp'⟩
      have hcur : ∀ l ∈ st.current ++ [line], goodLine l := by
        intro l hl
        rcases List.mem_append.mp hl with h' | h'
        · exact h.2 l h'
        · rw [List.mem_singleton.mp h']; exact hgood
      by_cases hsql : sqlComplete line.data
      · have hstep : stepLine st line =
            { migration := flushSt st.key st.migration (st.current ++ [line]),
              current := [], key := st.key } := by
          simp [stepLine, hcm, hemp', hsql]
        rw [hstep]
        exact ⟨goodSections_flush h.1 hcur, by intro l hl; simp at hl⟩
      · have hstep : stepLine st line = { st with current := st.current ++ [line] } := by
          simp [stepLine, hcm, hemp', hsql]
        rw [hstep]
        exact ⟨h.1, hcur⟩
  · rcases hmk : migrateKeyMatch c1 with - | k
    · have hstep : stepLine st line = st := by simp [stepLine, hcm, hmk]
      rw [hstep]; exact h
    · have hstep : stepLine st line =
          { migration := flushSt ⟨k⟩ st.migration st.current, current := [], key := ⟨k⟩ } := by
        simp [stepLine, hcm, hmk]
      rw [hstep]
      exact ⟨goodSections_flush h.1 h.2, by intro l hl; simp at hl⟩

/-- The whole line fold preserves the state invariant. -/
theorem goodState_foldl : ∀ (lines : List String) (st : PState), goodState st →
    goodState (lines.foldl stepLine st) := by
  intro lines
  induction lines with
  | nil => exact fun st h => h
  | cons l rest ih => intro st h; exact ih _ (goodState_step h l)

/-- Setting a key to a list of good statements preserves the invariant. -/
theorem goodSections_dictSet {m : Sections} {k : String} {v : List (List String)}
    (hm : goodSections m) (hv : ∀ s ∈ v, ∀ l ∈ s, goodLine l) :
    goodSections (dictSet m k v) := by
  unfold dictSet
  split
  · intro p hp s hs l hl
    rcases List.mem_map.mp hp with ⟨q, hq, rfl⟩
    split at hs
    · exact hv s hs l hl
    · exact hm q hq s hs l hl
  · intro p hp s hs l hl
    rcases List.mem_append.mp hp with h | h
    · exact hm p h s hs l hl
    · rw [List.mem_singleton.mp h] at hs
      exact hv s hs l hl

/-- Deleting a key preserves the invariant. -/
theorem goodSections_dictDel {m : Sections} {k : String} (hm : goodSections m) :
    goodSections (dictDel m k) :=
  fun p hp => hm p (List.mem_of_mem_filter hp)

/-- A looked-up statement list satisfies the invariant of its map. -/
theorem goodSections_dictGet {m : Sections} {k : String} {v : List (List String)}
    (hm : goodSections m) (hg : dictGet? m k = some v) :
    ∀ s ∈ v, ∀ l ∈ s, goodLine l := by
  unfold dictGet? at hg
  rcases hf : m.find? (fun p => p.1 == k) with - | q
  · rw [hf] at hg; simp at hg
  · rw [hf] at hg
    have hg' : some q.2 = some v := hg
    injection hg' with h
    subst h
    exact hm q (List.mem_of_find?_eq_some hf)

/-- The prolog-to-up reinterpretation preserves the section invariant. -/
theorem goodSections_fixup {m : Sections} (hm : goodSections m) :
    goodSections (if !(dictContains m "up") && dictContains m "prolog" then
        dictDel (dictSet m "up" ((dictGet? m "prolog").getD [])) "prolog" else m) := by
  split
  · apply goodSections_dictDel
    apply goodSections_dictSet hm
    rcases hg : dictGet? m "prolog" with - | v
    · intro s hs; simp at hs
    · simpa using goodSections_dictGet hm hg
  · exact hm

/-- The finished section map satisfies the invariant. -/
theorem goodSections_finish {st : PState} (h : goodState st) :
    goodSections (finishP st) := by
  have hm : goodSections (if st.current.length > 0 then
      flushSt st.key st.migration st.current else st.migration) := by
    split
    · exact goodSections_flush h.1 h.2
    · exact h.1
  exact goodSections_fixup hm

/-- C8: a full-line SQL comment that carries no `migrate:` key is dropped
entirely by `read_migration`: it occurs in no statement of any section of
the parsed output, even between the lines of a multi-line statement
(`read_migration` joins exactly the line lists of `readMigrationLines`, so
the dropped line is absent from the joined statement strings as well). -/
theorem read_no_comment_lines (lines : List String) (k : String)
    (stmts : List (List String)) (stmt : List String) (l : String)
    (hget : dictGet? (readMigrationLines lines) k = some stmts)
    (hstmt : stmt ∈ stmts)
    (hcomment : (commentMatch l.data).isSome)
    (_hnokey : migrateKeyMatch ((commentMatch l.data).getD []) = none) :
    l ∉ stmt := by
  intro hl
  have hinit : goodState { migration := [], current := [], key := "prolog" } :=
    ⟨fun p hp => absurd hp (List.not_mem_nil p), fun x hx => absurd hx (List.not_mem_nil x)⟩
  have hgood : goodSections (readMigrationLines lines) :=
    goodSections_finish (goodState_foldl lines _ hinit)
  have hbad : goodLine l := goodSections_dictGet hgood hget stmt hstmt l hl
  have hnone : commentMatch l.data = none := hbad.1
  rw [hnone] at hcomment
  simp at hcomment

/-- C8 witness: the no-comment theorem at a concrete three-line statement
whose middle line is a plain comment — the parsed `up` statement holds only
the two SQL lines. -/
theorem read_no_comment_lines_witness :
    "-- note" ∉ (["CREATE TABLE t (", "  id INT);"] : List String) :=
  read_no_comment_lines ["CREATE TABLE t (", "-- note", "  id INT);"] "up"
    [["CREATE TABLE t (", "  id INT);"]] ["CREATE TABLE t (", "  id INT);"] "-- note"
    (by decide) (by decide) (by decide) (by decide)

/-- The ledger operation flag of `apply_migrations`: the insert oracle for
Up, the delete oracle for Down. -/
def ledgerOk (insOk delOk : String → Bool) (kind : Kind) (name : String) : Bool :=
  match kind with
  | .up => insOk name
  | .down => delOk name

/-- The ledger effect recorded for a fully successful migration: the insert
of its name and hash for Up, the delete of its name for Down. -/
def ledgerEff (kind : Kind) (name : String) (m : Migration) : Effect :=
  match kind with
  | .up => Effect.insert name (hash_migration m)
  | .down => Effect.delete name

/-- A migration of the batch fully succeeds: no plain (non-may-fail)
statement of its query sequence fails, and its ledger operation succeeds. -/
def migSucceeds (failsQ insOk delOk : String → Bool) (kind : Kind) (template : Migration)
    (p : String × Migration) : Prop :=
  (∀ q ∈ migQueries template p.2 kind, failsQ (mayFailSub q) = true → mayFailSub q ≠ q)
  ∧ ledgerOk insOk delOk kind p.1 = true

instance (failsQ insOk delOk : String → Bool) (kind : Kind) (template : Migration)
    (p : String × Migration) :
    Decidable (migSucceeds failsQ insOk delOk kind template p) := by
  unfold migSucceeds
  infer_instance

/-- The effects a fully successful migration contributes to its
transaction: its successfully executed statements, then its ledger effect. -/
def migEffects (failsQ : String → Bool) (kind : Kind) (template : Migration)
    (p : String × Migration) : List Effect :=
  ((migQueries template p.2 kind).filterMap (fun q =>
    if failsQ (mayFailSub q) then none else some (Effect.exec p.1 (mayFailSub q))))
    ++ [ledgerEff kind p.1 p.2]

/-- When no plain statement fails, the statement loop appends exactly the
successful executions and reports success. -/
theorem runQueries_success (failsQ : String → Bool) (name : String) :
    ∀ (qs : List String) (acc : List Effect),
      (∀ q ∈ qs, failsQ (mayFailSub q) = true → mayFailSub q ≠ q) →
      runQueries failsQ name qs acc
        = (acc ++ qs.filterMap (fun q =>
            if failsQ (mayFailSub q) then none
            else some (Effect.exec name (mayFailSub q))), true) := by
  intro qs
  induction qs with
  | nil => intro acc h; simp [runQueries]
  | cons q rest ih =>
    intro acc h
    have hrest := fun q' hq' => h q' (List.mem_cons_of_mem _ hq')
    by_cases hf : failsQ (mayFailSub q) = true
    · have hne : mayFailSub q ≠ q := h q (List.mem_cons_self _ _) hf
      have hbne : (mayFailSub q != q) = true := bne_iff_ne.mpr hne
      simp only [runQueries, hf, hbne, if_true]
      rw [ih acc hrest]
      simp [hf]
    · have hf' : failsQ (mayFailSub q) = false := by simpa using hf
      simp only [runQueries, hf', Bool.false_eq_true, if_false]
      rw [ih _ hrest]
      simp [hf']

/-- When some plain statement fails, the statement loop reports failure. -/
theorem runQueries_fail (failsQ : String → Bool) (name : String) :
    ∀ (qs : List String) (acc : List Effect),
      ¬(∀ q ∈ qs, failsQ (mayFailSub q) = true → mayFailSub q ≠ q) →
      (runQueries failsQ name qs acc).2 = false := by
  intro qs
  induction qs with
  | nil =>
    intro acc h
    exact absurd (by intro q hq; simp at hq) h
  | cons q rest ih =>
    intro acc h
    by_cases hf : failsQ (mayFailSub q) = true
    · by_cases hm : mayFailSub q = q
      · have hbne : (mayFailSub q != q) = false := by simp [hm]
        simp [runQueries, hf, hbne]
      · have hbne : (mayFailSub q != q) = true := bne_iff_ne.mpr hm
        have hrest : ¬(∀ q' ∈ rest, failsQ (mayFailSub q') = true → mayFailSub q' ≠ q') := by
          intro hall
          apply h
          intro q' hq' hfq'
          rcases List.mem_cons.mp hq' with rfl | hq''
          · exact hm
          · exact hall q' hq'' hfq'
        simp only [runQueries, hf, hbne, if_true]
        exact ih acc hrest
    · have hf' : failsQ (mayFailSub q) = false := by simpa using hf
      have hrest : ¬(∀ q' ∈ rest, failsQ (mayFailSub q') = true → mayFailSub q' ≠ q') := by
        intro hall
        apply h
        intro q' hq' hfq'
        rcases List.mem_cons.mp hq' with rfl | hq''
        · exact absurd hfq' (by simp [hf'])
        · exact hall q' hq'' hfq'
      simp only [runQueries, hf', Bool.false_eq_true, if_false]
      exact ih _ hrest

/-- The Up/Down ledger dispatch of `apply_migrations` in terms of the
ledger oracle and the recorded ledger effect. -/
theorem ledger_step (insOk delOk : String → Bool) (kind : Kind) (name : String)
    (m : Migration) (acc : List Effect) :
    (match kind with
      | Kind.up => insert_migration insOk name m acc
      | Kind.down => delete_migration delOk name acc)
      = (if ledgerOk insOk delOk kind name then acc ++ [ledgerEff kind name m] else acc,
          ledgerOk insOk delOk kind name) := by
  cases kind
  · by_cases h : insOk name = true <;> simp [insert_migration, ledgerOk, ledgerEff, h]
  · by_cases h : delOk name = true <;> simp [delete_migration, ledgerOk, ledgerEff, h]

/-- The batch loop on a batch whose first migrations succeed and whose next
migration fails: the successful prefix is committed migration by migration
(or left for the one final commit that never happens, in single-transaction
mode), the failing migration rolls the open transaction back and stops, and
only the names of the successful prefix are printed. -/
theorem applyGo_failure_chain (failsQ insOk delOk : String → Bool) (kind : Kind) (one : Bool)
    (template : Migration) (bad : String × Migration) (rest : List (String × Migration))
    (hbad : ¬ migSucceeds failsQ insOk delOk kind template bad) :
    ∀ (pre : List (String × Migration)) (c pending : List Effect),
      (one = true ∨ pending = []) →
      (∀ p ∈ pre, migSucceeds failsQ insOk delOk kind template p) →
      applyGo failsQ insOk delOk kind one template (pre ++ bad :: rest) ⟨c, pending⟩
        = (⟨c ++ (if one then [] else (pre.map (migEffects failsQ kind template)).flatten), []⟩,
            pre.map Prod.fst) := by
  intro pre
  induction pre with
  | nil =>
    intro c pending _ _
    obtain ⟨bn, bm⟩ := bad
    by_cases hexec : ∀ q ∈ migQueries template bm kind,
        failsQ (mayFailSub q) = true → mayFailSub q ≠ q
    · have hled : ledgerOk insOk delOk kind bn = false := by
        by_cases h : ledgerOk insOk delOk kind bn = true
        · exact absurd ⟨hexec, h⟩ hbad
        · simpa using h
      simp only [List.nil_append, applyGo, execute_migration]
      rw [runQueries_success failsQ bn _ pending hexec, ledger_step]
      simp [hled]
    · have hrf : (runQueries failsQ bn (migQueries template bm kind) pending).2 = false :=
        runQueries_fail failsQ bn _ pending hexec
      simp only [List.nil_append, applyGo, execute_migration]
      simp [hrf]
  | cons p pre' ih =>
    intro c pending hpend hpre
    obtain ⟨name, m⟩ := p
    have hp := hpre (name, m) (List.mem_cons_self _ _)
    have hpre' : ∀ p' ∈ pre', migSucceeds failsQ insOk delOk kind template p' :=
      fun p' hp' => hpre p' (List.mem_cons_of_mem _ hp')
    simp only [List.cons_append, applyGo, execute_migration, List.append_eq]
    rw [runQueries_success failsQ name _ pending hp.1, ledger_step]
    rw [hp.2]
    cases one
    · rcases hpend with h | h
      · exact absurd h (by simp)
      · subst h
        simp only [if_true, Bool.false_eq_true, if_false]
        rw [ih (c ++ ([] ++ (migQueries template m kind).filterMap (fun q =>
            if failsQ (mayFailSub q) then none else some (Effect.exec name (mayFailSub q)))
            ++ [ledgerEff kind name m])) [] (Or.inr rfl) hpre']
        simp [migEffects]
    · simp only [if_true]
      rw [ih c (pending ++ (migQueries template m kind).filterMap (fun q =>
          if failsQ (mayFailSub q) then none else some (Effect.exec name (mayFailSub q)))
          ++ [ledgerEff kind name m]) (Or.inl rfl) hpre']
      simp

/-- Every effect contributed by a migration carries the name of that
migration. -/
theorem migEffects_name (failsQ : String → Bool) (kind : Kind) (template : Migration)
    (p : String × Migration) (e : Effect) (he : e ∈ migEffects failsQ kind template p) :
    e.migName = p.1 := by
  rcases List.mem_append.mp he with h | h
  · rcases List.mem_filterMap.mp h with ⟨q, -, hq⟩
    split at hq
    · simp at hq
    · rw [← Option.some_inj.mp hq]
      rfl
  · rw [List.mem_singleton.mp h]
    cases kind <;> rfl

/-- C1: a batch whose first `k` migrations fully succeed and whose next
migration `bad` fails (a plain statement error, or a failed ledger
insert/delete), run from a clean transaction over committed state `c`:
in non-single-transaction mode exactly the successful prefix is committed,
each migration with its ledger entry; in single-transaction mode nothing is
committed; no open transaction remains; every newly committed effect
belongs to a prefix migration; the name and hash of the failing migration are
never newly recorded in the ledger and none of its statements is newly
committed; and no effect of any migration after the failing one is newly
committed. -/
theorem apply_migrations_failure (failsQ insOk delOk : String → Bool) (kind : Kind)
    (one : Bool) (template : Migration) (pre : List (String × Migration))
    (bad : String × Migration) (rest : List (String × Migration)) (c : List Effect)
    (hpre : ∀ p ∈ pre, migSucceeds failsQ insOk delOk kind template p)
    (hbad : ¬ migSucceeds failsQ insOk delOk kind template bad)
    (hnd : ((pre ++ bad :: rest).map Prod.fst).Nodup) :
    let out := apply_migrations failsQ insOk delOk (pre ++ bad :: rest) kind one template ⟨c, []⟩
    out.1.committed
        = c ++ (if one then [] else (pre.map (migEffects failsQ kind template)).flatten)
    ∧ out.1.pending = []
    ∧ (one = false → ∀ p ∈ pre, ledgerEff kind p.1 p.2 ∈ out.1.committed)
    ∧ (∀ e ∈ out.1.committed, e ∉ c → e.migName ∈ pre.map Prod.fst)
    ∧ (∀ h, Effect.insert bad.1 h ∈ out.1.committed → Effect.insert bad.1 h ∈ c)
    ∧ (∀ s, Effect.exec bad.1 s ∈ out.1.committed → Effect.exec bad.1 s ∈ c)
    ∧ (∀ r ∈ rest, ∀ e ∈ out.1.committed, e.migName = r.1 → e ∈ c) := by
  intro out
  have heq : out = (⟨c ++ (if one then []
      else (pre.map (migEffects failsQ kind template)).flatten), []⟩, pre.map Prod.fst) :=
    applyGo_failure_chain failsQ insOk delOk kind one template bad rest hbad pre c []
      (Or.inr rfl) hpre
  have hco : out.1.committed
      = c ++ (if one then [] else (pre.map (migEffects failsQ kind template)).flatten) := by
    rw [heq]
  have hdisj : ∀ x ∈ bad.1 :: rest.map Prod.fst, x ∉ pre.map Prod.fst := by
    have hnd' : (pre.map Prod.fst ++ bad.1 :: rest.map Prod.fst).Nodup := by
      simpa using hnd
    have := (List.nodup_append.mp hnd').2.2
    exact fun x hx hxp => this hxp hx
  have hnew : ∀ e ∈ out.1.committed, e ∉ c → e.migName ∈ pre.map Prod.fst := by
    intro e he hec
    rw [hco] at he
    rcases List.mem_append.mp he with h | h
    · exact absurd h hec
    · rcases hone : one with - | -
      · rw [hone] at h
        simp only [Bool.false_eq_true, if_false] at h
        rcases List.mem_flatten.mp h with ⟨l, hl, hel⟩
        rcases List.mem_map.mp hl with ⟨p, hp, rfl⟩
        rw [migEffects_name failsQ kind template p e hel]
        exact List.mem_map.mpr ⟨p, hp, rfl⟩
      · rw [hone] at h
        simp at h
  refine ⟨hco, by rw [heq], ?_, hnew, ?_, ?_, ?_⟩
  · intro hone p hp
    rw [hco, hone]
    simp only [Bool.false_eq_true, if_false]
    refine List.mem_append_right _ (List.mem_flatten.mpr ?_)
    exact ⟨migEffects failsQ kind template p, List.mem_map.mpr ⟨p, hp, rfl⟩,
      List.mem_append_right _ (List.mem_singleton.mpr rfl)⟩
  · intro h hmem
    by_contra hc
    have := hnew _ hmem hc
    exact hdisj bad.1 (List.mem_cons_self _ _) this
  · intro s hmem
    by_contra hc
    have := hnew _ hmem hc
    exact hdisj bad.1 (List.mem_cons_self _ _) this
  · intro r hr e hmem hname
    by_contra hc
    have := hnew _ hmem hc
    rw [hname] at this
    exact hdisj r.1 (List.mem_cons_of_mem _ (List.mem_map.mpr ⟨r, hr, rfl⟩)) this

/-- C1 witness: a three-migration Up batch in which the only statement of the second migration fails, in per-migration transaction mode — the theorem applies
and, after the failure, no transaction is left open. -/
theorem apply_migrations_failure_witness :
    (apply_migrations (fun q => q == "BOOM;\n") (fun _ => true) (fun _ => true)
        ([("m1", [("up", ["OK1;\n"])])] ++ ("m2", [("up", ["BOOM;\n"])])
          :: [("m3", [("up", ["OK3;\n"])])])
        Kind.up false [] ⟨[], []⟩).1.pending = [] :=
  (apply_migrations_failure (fun q => q == "BOOM;\n") (fun _ => true) (fun _ => true)
    Kind.up false [] [("m1", [("up", ["OK1;\n"])])] ("m2", [("up", ["BOOM;\n"])])
    [("m3", [("up", ["OK3;\n"])])] [] (by decide) (by decide) (by decide)).2.1

end Migrate
